import Mathlib

/-!
Shallow embedding of the `rag-app` repository (variant `src/server/server.py`,
the FastAPI "Dynamic RAG Server", version 2.7.0).

The repository is integration glue over external libraries: the only state its
own code manages is an in-process cache `rag_chain_cache` mapping a collection
name to a retrieval pipeline handle, a readiness flag `is_server_ready`, and
direct SQL against the two PGVector tables `langchain_pg_collection` and
`langchain_pg_embedding`.  We embed that state as `ServerState` and each HTTP
endpoint as a pure state-transition function returning an `Outcome` (either a
success payload or an HTTP error code, mirroring `raise HTTPException`).

External library behaviour that the endpoints depend on but that is not part
of the repository (the langchain text splitter, `PGVector.from_documents` with
`pre_delete_collection=True`, the exception raised when a `PGVector` handle is
built for a missing collection, and SQL transaction rollback) is modelled from
the spec; each such definition carries a doc comment saying so.
-/

set_option maxRecDepth 100000

namespace RagApp

/-- Chunk size passed to the text splitter at `server.py` line 155
(`chunk_size=500`). -/
def chunkSize : Nat := 500

/-- Chunk overlap passed to the text splitter at `server.py` line 155
(`chunk_overlap=50`). -/
def chunkOverlap : Nat := 50

/-- Distance between the starts of two consecutive windows of the sliding
window chunker: window size minus overlap. -/
def stride : Nat := chunkSize - chunkOverlap

/-- Fuel-indexed worker for the chunker.  The fuel only ensures structural
recursion; `splitTextAux_congr` shows any fuel at least the text length gives
the same answer. -/
def splitTextAux : Nat → List Char → List (List Char)
  | 0, _ => []
  | fuel + 1, t =>
    if t.length = 0 then []
    else if t.length ≤ chunkSize then [t]
    else t.take chunkSize :: splitTextAux fuel (t.drop stride)

/-- Modelled from the spec: the chunker used at ingestion
(`RecursiveCharacterTextSplitter(chunk_size=500, chunk_overlap=50)` followed by
`create_documents`, `server.py` lines 155-156; the splitter itself is external
library code not contained in this repository).  The spec describes it as a
"fixed-size sliding window with overlap", "no semantic awareness;
deterministic given (text, window size, overlap)": each window starts `stride`
characters after the previous one and extends for `chunkSize` characters (or
to the end of the text). -/
def splitText (t : List Char) : List (List Char) :=
  splitTextAux t.length t

/-- Fuel-indexed chunk counter, mirroring `splitTextAux` on lengths alone. -/
def numChunksAux : Nat → Nat → Nat
  | 0, _ => 0
  | fuel + 1, n =>
    if n = 0 then 0
    else if n ≤ chunkSize then 1
    else 1 + numChunksAux fuel (n - stride)

/-- Number of chunks the sliding-window chunker produces for an input of a
given length. -/
def numChunks (n : Nat) : Nat := numChunksAux n n

/-- The text of one stored chunk (a Python `str`). -/
abbrev Doc := List Char

/-- One row of the `langchain_pg_embedding` table: the owning collection's
uuid (`collection_id`) and the chunk text.  The embedding vector itself plays
no role in any claim and is omitted. -/
structure EmbeddingRow where
  collection_id : Nat
  document : Doc
deriving DecidableEq

/-- One row of the `langchain_pg_collection` metadata table. -/
structure CollectionRow where
  name : String
  uuid : Nat
deriving DecidableEq

/-- The PGVector database reached through `connection_string`.  `hasTables`
records whether the `langchain_pg_collection` table exists yet (checked via
`inspector.has_table` in `list_collections`; the tables are created on first
ingest).  `nextUuid` supplies the fresh uuid PGVector assigns to a newly
created collection. -/
structure DB where
  hasTables : Bool
  collections : List CollectionRow
  embeddings : List EmbeddingRow
  nextUuid : Nat
deriving DecidableEq

/-- Row returned by `SELECT uuid FROM langchain_pg_collection WHERE name =
:coll_name ... .first()` (`server.py` lines 243-244): the first metadata row
with the given name. -/
def DB.findCollection (db : DB) (n : String) : Option CollectionRow :=
  db.collections.find? (fun r => decide (r.name = n))

/-- The chunk texts currently stored for a named collection: the documents of
the embedding rows whose `collection_id` is the collection's uuid. -/
def DB.docsOf (db : DB) (n : String) : List Doc :=
  match db.findCollection n with
  | none => []
  | some r =>
    (db.embeddings.filter (fun e => decide (e.collection_id = r.uuid))).map
      (fun e => e.document)

/-- Deletion of one collection by uuid: drop its embedding rows
(`DELETE FROM langchain_pg_embedding WHERE collection_id = :coll_id`) and its
metadata row (`DELETE FROM langchain_pg_collection WHERE uuid = :coll_id`),
`server.py` lines 252-257. -/
def DB.removeByUuid (db : DB) (u : Nat) : DB :=
  { db with
    collections := db.collections.filter (fun c => decide (c.uuid ≠ u)),
    embeddings := db.embeddings.filter (fun e => decide (e.collection_id ≠ u)) }

/-- Modelled from the spec: the effect of
`PGVector.from_documents(..., pre_delete_collection=True)` (`server.py` lines
161-167; the library itself is not part of this repository).  The spec calls
it an "upsert into a named collection" with "last ingest wins": any existing
collection with this name is deleted together with its embedding rows, then
the collection is created afresh with a new uuid and one embedding row per
chunk, creating the tables when absent.  `upsertBase` is the pre-delete step
(the database with any previous collection of this name removed), `upsert` the
whole operation. -/
def DB.upsertBase (db : DB) (n : String) : DB :=
  match db.findCollection n with
  | none => db
  | some r => db.removeByUuid r.uuid

def DB.upsert (db : DB) (n : String) (docs : List Doc) : DB :=
  { hasTables := true,
    collections := (db.upsertBase n).collections ++ [⟨n, db.nextUuid⟩],
    embeddings :=
      (db.upsertBase n).embeddings ++ docs.map (fun d => ⟨db.nextUuid, d⟩),
    nextUuid := db.nextUuid + 1 }

/-- The process state of the server: the readiness flag `is_server_ready`, the
database behind `connection_string`, and the in-memory `rag_chain_cache`.  A
cached retrieval pipeline handle is represented by what it was built from: the
chunk texts of its collection at build time (retriever contents; the prompt
and model are shared and immutable). -/
structure ServerState where
  is_server_ready : Bool
  db : DB
  rag_chain_cache : List (String × List Doc)
deriving DecidableEq

/-- Endpoint result: a success payload or the `status_code` of the
`HTTPException` raised. -/
inductive Outcome (α : Type) where
  | ok (val : α)
  | err (code : Nat)
deriving DecidableEq

def Outcome.isOk {α : Type} : Outcome α → Bool
  | .ok _ => true
  | .err _ => false

/-- `get_rag_chain` (`server.py` lines 107-135): return the cached chain when
present; otherwise build one over the collection's current contents and
memoise it.  Modelled from the spec on one point: building the `PGVector`
handle raises (and the handler answers 404) exactly when the collection is
"missing/unreadable", i.e. absent from the metadata table. -/
def get_rag_chain (s : ServerState) (collection_name : String) :
    Outcome (List Doc) × ServerState :=
  match s.rag_chain_cache.find? (fun p => decide (p.1 = collection_name)) with
  | some p => (.ok p.2, s)
  | none =>
    match s.db.findCollection collection_name with
    | some _ =>
      (.ok (s.db.docsOf collection_name),
        { s with rag_chain_cache :=
            s.rag_chain_cache ++ [(collection_name, s.db.docsOf collection_name)] })
    | none => (.err 404, s)

/-- Response model of `POST /ingest` (`server.py` lines 143-146). -/
structure IngestResponse where
  message : String
  collection_name : String
  documents_added : Nat
deriving DecidableEq

/-- `POST /ingest` (`server.py` lines 148-179): refuse with 503 when the
server is not ready; split the content; refuse with 400 when no chunks result;
otherwise upsert the chunks into the named collection, evict any cached chain
for that name, and report the chunk count as `documents_added`. -/
def ingest_data (s : ServerState) (collection_name : String) (content : List Char) :
    Outcome IngestResponse × ServerState :=
  if s.is_server_ready = false then (.err 503, s)
  else
    let documents := splitText content
    if documents.isEmpty then (.err 400, s)
    else
      (.ok { message := "Data ingested successfully.",
             collection_name := collection_name,
             documents_added := documents.length },
        { s with
          db := s.db.upsert collection_name documents,
          rag_chain_cache :=
            s.rag_chain_cache.filter (fun p => decide (p.1 ≠ collection_name)) })

/-- `POST /ask` (`server.py` lines 188-198): refuse with 503 when the server
is not ready; otherwise obtain a chain via `get_rag_chain` (404 on failure)
and invoke it.  The generated answer itself is external model output and is
irrelevant to every claim, so the success payload is `Unit`. -/
def ask_question (s : ServerState) (question collection_name : String) :
    Outcome Unit × ServerState :=
  if s.is_server_ready = false then (.err 503, s)
  else
    match get_rag_chain s collection_name with
    | (.ok _, s') => (.ok (), s')
    | (.err c, s') => (.err c, s')

/-- `GET /collections` (`server.py` lines 200-223): refuse with 503 when the
server is not ready; return `[]` when the metadata table does not exist yet;
otherwise return the `name` column of `langchain_pg_collection`. -/
def list_collections (s : ServerState) : Outcome (List String) × ServerState :=
  if s.is_server_ready = false then (.err 503, s)
  else if s.db.hasTables = false then (.ok [], s)
  else (.ok (s.db.collections.map (fun r => r.name)), s)

/-- Failure oracle for the three SQL statements inside the delete transaction:
`none` means every statement succeeds, `some f` means statement `f` raises a
database error. -/
inductive DeleteFailure where
  | onFind
  | onDeleteEmbeddings
  | onDeleteCollection
deriving DecidableEq

/-- `DELETE /collections/collection_name` (`server.py` lines 226-272): refuse
with 503 when the server is not ready; inside one `engine.begin()` transaction
find the collection's uuid by name (404 when absent), delete its embedding
rows, delete its metadata row; after the transaction commits, evict any cached
chain for the name; answer 204 (here `.ok ()`).  Modelled from the spec:
`engine.begin()` rolls the transaction back when any statement inside raises,
so every error path (404 re-raised, or 500 from a database error) leaves the
database unchanged. -/
def delete_collection (s : ServerState) (collection_name : String)
    (failAt : Option DeleteFailure) : Outcome Unit × ServerState :=
  if s.is_server_ready = false then (.err 503, s)
  else if failAt = some .onFind then (.err 500, s)
  else
    match s.db.findCollection collection_name with
    | none => (.err 404, s)
    | some r =>
      if failAt = some .onDeleteEmbeddings then (.err 500, s)
      else if failAt = some .onDeleteCollection then (.err 500, s)
      else
        (.ok (), { s with
          db := s.db.removeByUuid r.uuid,
          rag_chain_cache :=
            s.rag_chain_cache.filter (fun p => decide (p.1 ≠ collection_name)) })

/-- One request (or the startup event) as observed by the server's shared
state. -/
inductive Op where
  | startup
  | ask (question collection_name : String)
  | ingest (collection_name : String) (content : List Char)
  | listCollections
  | delete (collection_name : String) (failAt : Option DeleteFailure)

/-- State transition of one operation (the `startup_event` handler sets
`is_server_ready`; each endpoint contributes its state effect). -/
def runOp (s : ServerState) : Op → ServerState
  | .startup => { s with is_server_ready := true }
  | .ask q n => (ask_question s q n).2
  | .ingest n c => (ingest_data s n c).2
  | .listCollections => (list_collections s).2
  | .delete n f => (delete_collection s n f).2

/-- Well-formedness of the external database: collection names are unique
(PGVector keeps a unique constraint on `name`), uuids are unique, and
`nextUuid` is fresh. -/
def DBWF (db : DB) : Prop :=
  (db.collections.map (fun r => r.name)).Nodup ∧
  (db.collections.map (fun r => r.uuid)).Nodup ∧
  ∀ r ∈ db.collections, r.uuid < db.nextUuid

/-- The cache invariant of the spec: every pipeline handle in the cache is
keyed by an existing collection and reflects that collection's current
contents. -/
def CacheConsistent (s : ServerState) : Prop :=
  ∀ p ∈ s.rag_chain_cache,
    s.db.findCollection p.1 ≠ none ∧ p.2 = s.db.docsOf p.1

def Inv (s : ServerState) : Prop := DBWF s.db ∧ CacheConsistent s

/-- States the server can actually be in: it starts with an empty cache and
the readiness flag down against some well-formed database, then processes
operations. -/
inductive Reachable : ServerState → Prop where
  | init (db : DB) (hdb : DBWF db) : Reachable ⟨false, db, []⟩
  | step (s : ServerState) (op : Op) (h : Reachable s) : Reachable (runOp s op)

/-- Does `rag_chain_cache` hold an entry for this collection name? -/
def cacheHasKey (s : ServerState) (n : String) : Bool :=
  s.rag_chain_cache.any (fun p => decide (p.1 = n))

/-- Does every cached pipeline handle equal the current contents of its
collection? -/
def cacheCurrent (s : ServerState) : Bool :=
  s.rag_chain_cache.all (fun p => decide (p.2 = s.db.docsOf p.1))

/-- No embedding row references a collection uuid that is absent from the
metadata table (no orphaned vector rows). -/
def DB.noOrphans (db : DB) : Bool :=
  db.embeddings.all
    (fun e => db.collections.any (fun c => decide (c.uuid = e.collection_id)))

/-- Collection names returned by `GET /collections` (empty on an error
response). -/
def listedNames (s : ServerState) : List String :=
  match (list_collections s).1 with
  | .ok l => l
  | .err _ => []

/-- The `documents_added` field of an ingest response (0 on an error
response). -/
def documentsAdded : Outcome IngestResponse → Nat
  | .ok r => r.documents_added
  | .err _ => 0

/-- The `collection_name` field of an ingest response (empty on an error
response). -/
def responseCollectionName : Outcome IngestResponse → String
  | .ok r => r.collection_name
  | .err _ => ""

instance (db : DB) : Decidable (DBWF db) := by
  unfold DBWF
  infer_instance

/-- A fresh database: no tables, no rows. -/
def db0 : DB := ⟨false, [], [], 0⟩

/-- The server process right after boot, before the startup event. -/
def s0 : ServerState := ⟨false, db0, []⟩

/-- The server after the startup event completed. -/
def s1 : ServerState := runOp s0 .startup

/-- The server after startup and one successful ingest into `docs`. -/
def s2 : ServerState := runOp s1 (.ingest "docs" ['h', 'i'])

theorem stride_pos : 0 < stride := by decide

theorem stride_lt_chunkSize : stride < chunkSize := by decide

theorem splitTextAux_congr :
    ∀ (f₁ f₂ : Nat) (t : List Char), t.length ≤ f₁ → t.length ≤ f₂ →
      splitTextAux f₁ t = splitTextAux f₂ t := by
  intro f₁
  induction f₁ with
  | zero =>
    intro f₂ t h₁ h₂
    have hz : t.length = 0 := Nat.le_zero.mp h₁
    cases f₂ with
    | zero => rfl
    | succ f => simp [splitTextAux, hz]
  | succ f ih =>
    intro f₂ t h₁ h₂
    cases f₂ with
    | zero =>
      have hz : t.length = 0 := Nat.le_zero.mp h₂
      simp [splitTextAux, hz]
    | succ g =>
      simp only [splitTextAux]
      by_cases hz : t.length = 0
      · simp [hz]
      · by_cases hle : t.length ≤ chunkSize
        · simp [hz, hle]
        · have hlen : (t.drop stride).length = t.length - stride :=
            List.length_drop stride t
          have hs := stride_pos
          have hb₁ : (t.drop stride).length ≤ f := by omega
          have hb₂ : (t.drop stride).length ≤ g := by omega
          simp [hz, hle, ih g (t.drop stride) hb₁ hb₂]

theorem splitTextAux_succ (f : Nat) (t : List Char) :
    splitTextAux (f + 1) t =
      if t.length = 0 then []
      else if t.length ≤ chunkSize then [t]
      else t.take chunkSize :: splitTextAux f (t.drop stride) := rfl

/-- Unfolding equation for `splitText` that hides the fuel. -/
theorem splitText_eq (t : List Char) :
    splitText t =
      if t.length = 0 then []
      else if t.length ≤ chunkSize then [t]
      else t.take chunkSize :: splitText (t.drop stride) := by
  by_cases hz : t.length = 0
  · show splitTextAux t.length t = _
    rw [hz, if_pos rfl]
    rfl
  · obtain ⟨k, hk⟩ : ∃ k, t.length = k + 1 := ⟨t.length - 1, by omega⟩
    show splitTextAux t.length t = _
    conv_lhs => rw [hk]
    rw [splitTextAux_succ]
    by_cases hle : t.length ≤ chunkSize
    · rw [if_neg hz, if_neg hz, if_pos hle, if_pos hle]
    · rw [if_neg hz, if_neg hz, if_neg hle, if_neg hle]
      congr 1
      show splitTextAux k (t.drop stride) = splitTextAux (t.drop stride).length (t.drop stride)
      apply splitTextAux_congr
      · have := List.length_drop stride t
        have := stride_pos
        omega
      · exact le_rfl

theorem splitText_nil : splitText [] = [] := rfl

/-- Two texts of the same length produce the same number of chunks: the chunk
boundaries depend only on the length, not on the characters. -/
theorem splitText_length_eq :
    ∀ (N : Nat) (c c' : List Char), c.length ≤ N → c.length = c'.length →
      (splitText c).length = (splitText c').length := by
  intro N
  induction N with
  | zero =>
    intro c c' h₁ h₂
    have hz : c.length = 0 := Nat.le_zero.mp h₁
    rw [splitText_eq c, splitText_eq c', ← h₂]
    simp [hz]
  | succ n ih =>
    intro c c' h₁ h₂
    rw [splitText_eq c, splitText_eq c', ← h₂]
    by_cases hz : c.length = 0
    · simp [hz]
    · by_cases hle : c.length ≤ chunkSize
      · simp [hz, hle]
      · have hs := stride_pos
        have hlc : (c.drop stride).length = c.length - stride :=
          List.length_drop stride c
        have hlc' : (c'.drop stride).length = c'.length - stride :=
          List.length_drop stride c'
        have hb : (c.drop stride).length ≤ n := by omega
        have heq : (c.drop stride).length = (c'.drop stride).length := by omega
        simp [hz, hle, ih (c.drop stride) (c'.drop stride) hb heq]

/-- Each produced chunk is the contiguous slice of the input starting at
`stride * i` and extending for `chunkSize` characters. -/
theorem splitText_getD :
    ∀ (N : Nat) (c : List Char), c.length ≤ N →
      ∀ i, i < (splitText c).length →
        (splitText c).getD i [] = (c.drop (stride * i)).take chunkSize := by
  intro N
  induction N with
  | zero =>
    intro c h₁ i hi
    have hz : c.length = 0 := Nat.le_zero.mp h₁
    rw [splitText_eq c] at hi
    simp [hz] at hi
  | succ n ih =>
    intro c h₁ i hi
    rw [splitText_eq c] at hi ⊢
    by_cases hz : c.length = 0
    · rw [if_pos hz] at hi
      exact absurd hi (by simp)
    · rw [if_neg hz] at hi ⊢
      by_cases hle : c.length ≤ chunkSize
      · rw [if_pos hle] at hi ⊢
        have hi0 : i = 0 := by
          simp only [List.length_singleton] at hi
          omega
        subst hi0
        rw [Nat.mul_zero, List.drop_zero, List.take_of_length_le hle,
          List.getD_cons_zero]
      · rw [if_neg hle] at hi ⊢
        have hs := stride_pos
        have hlc : (c.drop stride).length = c.length - stride :=
          List.length_drop stride c
        have hb : (c.drop stride).length ≤ n := by omega
        cases i with
        | zero => rw [Nat.mul_zero, List.drop_zero, List.getD_cons_zero]
        | succ j =>
          rw [List.getD_cons_succ]
          have hj : j < (splitText (c.drop stride)).length := by
            simp only [List.length_cons] at hi
            omega
          rw [ih (c.drop stride) hb j hj, List.drop_drop]
          have hm : stride + stride * j = stride * (j + 1) := by ring
          rw [hm]

/-- When chunk `i + 1` exists, the input extends strictly beyond the end of
chunk `i`. -/
theorem splitText_succ_bound :
    ∀ (N : Nat) (c : List Char), c.length ≤ N →
      ∀ i, i + 1 < (splitText c).length → stride * i + chunkSize < c.length := by
  intro N
  induction N with
  | zero =>
    intro c h₁ i hi
    have hz : c.length = 0 := Nat.le_zero.mp h₁
    rw [splitText_eq c] at hi
    simp [hz] at hi
  | succ n ih =>
    intro c h₁ i hi
    rw [splitText_eq c] at hi
    by_cases hz : c.length = 0
    · simp [hz] at hi
    · by_cases hle : c.length ≤ chunkSize
      · simp [hz, hle] at hi
      · have hs := stride_pos
        have hlc : (c.drop stride).length = c.length - stride :=
          List.length_drop stride c
        have hb : (c.drop stride).length ≤ n := by omega
        simp only [hz, hle, if_false, List.length_cons] at hi
        cases i with
        | zero =>
          simp only [Nat.mul_zero, Nat.zero_add]
          omega
        | succ j =>
          have hj : j + 1 < (splitText (c.drop stride)).length := by
            simpa using Nat.lt_of_succ_lt_succ hi
          have := ih (c.drop stride) hb j hj
          have hm : stride * (j + 1) = stride * j + stride := by ring
          omega

/-- When chunk `i` exists, its start position lies inside the input. -/
theorem splitText_start_bound :
    ∀ (N : Nat) (c : List Char), c.length ≤ N →
      ∀ i, i < (splitText c).length → stride * i < c.length := by
  intro N
  induction N with
  | zero =>
    intro c h₁ i hi
    have hz : c.length = 0 := Nat.le_zero.mp h₁
    rw [splitText_eq c] at hi
    simp [hz] at hi
  | succ n ih =>
    intro c h₁ i hi
    rw [splitText_eq c] at hi
    by_cases hz : c.length = 0
    · simp [hz] at hi
    · by_cases hle : c.length ≤ chunkSize
      · simp only [hz, if_false, hle, if_true, List.length_singleton] at hi
        interval_cases i
        simpa using Nat.pos_of_ne_zero hz
      · have hs := stride_pos
        have hlc : (c.drop stride).length = c.length - stride :=
          List.length_drop stride c
        have hb : (c.drop stride).length ≤ n := by omega
        simp only [hz, hle, if_false, List.length_cons] at hi
        cases i with
        | zero =>
          simpa using Nat.pos_of_ne_zero hz
        | succ j =>
          have hj : j < (splitText (c.drop stride)).length := by
            simpa using Nat.lt_of_succ_lt_succ hi
          have := ih (c.drop stride) hb j hj
          have hm : stride * (j + 1) = stride * j + stride := by ring
          omega

/-- Chunk `i` of the split is the slice of the input starting at `stride * i`
of (at most) `chunkSize` characters. -/
theorem splitText_chunk (c : List Char) (i : Nat) (hi : i < (splitText c).length) :
    (splitText c).getD i [] = (c.drop (stride * i)).take chunkSize :=
  splitText_getD c.length c le_rfl i hi

theorem splitText_chunk_length_le (c : List Char) (i : Nat)
    (hi : i < (splitText c).length) :
    ((splitText c).getD i []).length ≤ chunkSize := by
  rw [splitText_chunk c i hi, List.length_take]
  exact inf_le_left

/-- Every chunk other than the last one has length exactly `chunkSize`. -/
theorem splitText_chunk_length_full (c : List Char) (i : Nat)
    (hi : i + 1 < (splitText c).length) :
    ((splitText c).getD i []).length = chunkSize := by
  have hi' : i < (splitText c).length := Nat.lt_of_succ_lt hi
  rw [splitText_chunk c i hi', List.length_take, List.length_drop]
  have hb := splitText_succ_bound c.length c le_rfl i hi
  exact min_eq_left (by omega)

theorem splitText_chunk_ne_nil (c : List Char) (i : Nat)
    (hi : i < (splitText c).length) :
    (splitText c).getD i [] ≠ [] := by
  have hb := splitText_start_bound c.length c le_rfl i hi
  have hpos : 0 < ((splitText c).getD i []).length := by
    rw [splitText_chunk c i hi, List.length_take, List.length_drop]
    have hc : 0 < chunkSize := by decide
    exact lt_min hc (by omega)
  exact List.length_pos.mp hpos

/-- Consecutive chunks share exactly `chunkOverlap` characters: the last
`chunkOverlap` characters of chunk `i` (what remains of a full chunk after
dropping the leading `stride` characters) are the first `chunkOverlap`
characters of chunk `i + 1`. -/
theorem splitText_overlap (c : List Char) (i : Nat)
    (hi : i + 1 < (splitText c).length) :
    ((splitText c).getD i []).drop stride
      = ((splitText c).getD (i + 1) []).take chunkOverlap := by
  have hi' : i < (splitText c).length := Nat.lt_of_succ_lt hi
  rw [splitText_chunk c i hi', splitText_chunk c (i + 1) hi]
  rw [List.drop_take, List.drop_drop, List.take_take]
  have h₁ : chunkSize - stride = chunkOverlap := by decide
  have h₂ : chunkOverlap ⊓ chunkSize = chunkOverlap := by decide
  have h₃ : stride * i + stride = stride * (i + 1) := by ring
  rw [h₁, h₂, h₃]

theorem numChunksAux_succ (f n : Nat) :
    numChunksAux (f + 1) n =
      if n = 0 then 0
      else if n ≤ chunkSize then 1
      else 1 + numChunksAux f (n - stride) := rfl

theorem numChunksAux_congr :
    ∀ (f₁ f₂ n : Nat), n ≤ f₁ → n ≤ f₂ → numChunksAux f₁ n = numChunksAux f₂ n := by
  intro f₁
  induction f₁ with
  | zero =>
    intro f₂ n h₁ h₂
    have hz : n = 0 := Nat.le_zero.mp h₁
    cases f₂ with
    | zero => rfl
    | succ f => simp [numChunksAux, hz]
  | succ f ih =>
    intro f₂ n h₁ h₂
    cases f₂ with
    | zero =>
      have hz : n = 0 := Nat.le_zero.mp h₂
      simp [numChunksAux, hz]
    | succ g =>
      simp only [numChunksAux]
      by_cases hz : n = 0
      · simp [hz]
      · by_cases hle : n ≤ chunkSize
        · simp [hz, hle]
        · have hs := stride_pos
          have hb₁ : n - stride ≤ f := by omega
          have hb₂ : n - stride ≤ g := by omega
          simp [hz, hle, ih g (n - stride) hb₁ hb₂]

theorem numChunks_eq (n : Nat) :
    numChunks n =
      if n = 0 then 0
      else if n ≤ chunkSize then 1
      else 1 + numChunks (n - stride) := by
  by_cases hz : n = 0
  · show numChunksAux n n = _
    rw [hz, if_pos rfl]
    rfl
  · obtain ⟨k, hk⟩ : ∃ k, n = k + 1 := ⟨n - 1, by omega⟩
    show numChunksAux n n = _
    nth_rewrite 1 [hk]
    rw [numChunksAux_succ]
    by_cases hle : n ≤ chunkSize
    · rw [if_neg hz, if_neg hz, if_pos hle, if_pos hle]
    · rw [if_neg hz, if_neg hz, if_neg hle, if_neg hle]
      have hs := stride_pos
      have htail : numChunksAux k (n - stride) = numChunks (n - stride) := by
        show _ = numChunksAux (n - stride) (n - stride)
        exact numChunksAux_congr k (n - stride) (n - stride) (by omega) le_rfl
      rw [htail]

/-- The number of chunks depends only on the length of the input text. -/
theorem splitText_length_numChunks :
    ∀ (N : Nat) (c : List Char), c.length ≤ N →
      (splitText c).length = numChunks c.length := by
  intro N
  induction N with
  | zero =>
    intro c h₁
    have hz : c.length = 0 := Nat.le_zero.mp h₁
    rw [splitText_eq c, numChunks_eq]
    simp [hz]
  | succ n ih =>
    intro c h₁
    rw [splitText_eq c, numChunks_eq]
    by_cases hz : c.length = 0
    · simp [hz]
    · by_cases hle : c.length ≤ chunkSize
      · simp [hz, hle]
      · have hs := stride_pos
        have hlc : (c.drop stride).length = c.length - stride :=
          List.length_drop stride c
        have hb : (c.drop stride).length ≤ n := by omega
        have hrec := ih (c.drop stride) hb
        rw [hlc] at hrec
        simp only [hz, hle, if_false, List.length_cons]
        omega

theorem splitText_count (c : List Char) :
    (splitText c).length = numChunks c.length :=
  splitText_length_numChunks c.length c le_rfl

theorem splitText_eq_nil_iff (c : List Char) : splitText c = [] ↔ c = [] := by
  rw [splitText_eq]
  by_cases hz : c.length = 0
  · rw [if_pos hz]
    simp [List.length_eq_zero.mp hz]
  · rw [if_neg hz]
    have hc : c ≠ [] := by
      intro h
      exact hz (by simp [h])
    by_cases hle : c.length ≤ chunkSize
    · rw [if_pos hle]
      simp [hc]
    · rw [if_neg hle]
      simp [hc]

theorem find?_filter_of_imp {α : Type} (l : List α) (p q : α → Bool)
    (h : ∀ x ∈ l, p x = true → q x = true) :
    (l.filter q).find? p = l.find? p := by
  induction l with
  | nil => rfl
  | cons a l ih =>
    have ih' := ih (fun x hx hpx => h x (List.mem_cons_of_mem a hx) hpx)
    by_cases hq : q a = true
    · rw [List.filter_cons_of_pos hq]
      by_cases hp : p a = true
      · rw [List.find?_cons_of_pos _ hp, List.find?_cons_of_pos _ hp]
      · rw [List.find?_cons_of_neg _ hp, List.find?_cons_of_neg _ hp]
        exact ih'
    · have hp : ¬p a = true := fun hpa => hq (h a (List.mem_cons_self a l) hpa)
      rw [List.filter_cons_of_neg hq, List.find?_cons_of_neg _ hp]
      exact ih'

theorem filter_filter_of_imp {α : Type} (l : List α) (p q : α → Bool)
    (h : ∀ x ∈ l, p x = true → q x = true) :
    (l.filter q).filter p = l.filter p := by
  induction l with
  | nil => rfl
  | cons a l ih =>
    have ih' := ih (fun x hx hpx => h x (List.mem_cons_of_mem a hx) hpx)
    by_cases hq : q a = true
    · rw [List.filter_cons_of_pos hq]
      by_cases hp : p a = true
      · rw [List.filter_cons_of_pos hp, List.filter_cons_of_pos hp, ih']
      · rw [List.filter_cons_of_neg hp, List.filter_cons_of_neg hp]
        exact ih'
    · have hp : ¬p a = true := fun hpa => hq (h a (List.mem_cons_self a l) hpa)
      rw [List.filter_cons_of_neg hq, List.filter_cons_of_neg hp]
      exact ih'

theorem findCollection_spec {db : DB} {n : String} {r : CollectionRow}
    (h : db.findCollection n = some r) : r ∈ db.collections ∧ r.name = n := by
  unfold DB.findCollection at h
  have h1 := List.find?_some h
  simp only [decide_eq_true_eq] at h1
  exact ⟨List.mem_of_find?_eq_some h, h1⟩

theorem name_inj {db : DB} (hwf : DBWF db) {c r : CollectionRow}
    (hc : c ∈ db.collections) (hr : r ∈ db.collections) (h : c.name = r.name) :
    c = r :=
  List.inj_on_of_nodup_map hwf.1 hc hr h

theorem uuid_inj {db : DB} (hwf : DBWF db) {c r : CollectionRow}
    (hc : c ∈ db.collections) (hr : r ∈ db.collections) (h : c.uuid = r.uuid) :
    c = r :=
  List.inj_on_of_nodup_map hwf.2.1 hc hr h

theorem removeByUuid_findCollection_ne {db : DB} (hwf : DBWF db)
    {n : String} {r : CollectionRow} (hf : db.findCollection n = some r)
    {m : String} (hm : m ≠ n) :
    (db.removeByUuid r.uuid).findCollection m = db.findCollection m := by
  obtain ⟨hrmem, hrname⟩ := findCollection_spec hf
  apply find?_filter_of_imp
  intro x hx hpx
  have hxm : x.name = m := of_decide_eq_true hpx
  apply decide_eq_true
  intro hxu
  have : x = r := uuid_inj hwf hx hrmem hxu
  exact hm (by rw [← hxm, this, hrname])

theorem removeByUuid_docsOf_ne {db : DB} (hwf : DBWF db)
    {n : String} {r : CollectionRow} (hf : db.findCollection n = some r)
    {m : String} (hm : m ≠ n) :
    (db.removeByUuid r.uuid).docsOf m = db.docsOf m := by
  obtain ⟨hrmem, hrname⟩ := findCollection_spec hf
  unfold DB.docsOf
  rw [show (db.removeByUuid r.uuid).findCollection m = db.findCollection m from
    removeByUuid_findCollection_ne hwf hf hm]
  cases hfm : db.findCollection m with
  | none => rfl
  | some rm =>
    obtain ⟨hmmem, hmname⟩ := findCollection_spec hfm
    have hne : rm.uuid ≠ r.uuid := by
      intro hu
      have : rm = r := uuid_inj hwf hmmem hrmem hu
      exact hm (by rw [← hmname, this, hrname])
    show ((db.embeddings.filter _).filter _).map _ = _
    rw [filter_filter_of_imp]
    intro e _ he
    have : e.collection_id = rm.uuid := of_decide_eq_true he
    apply decide_eq_true
    rw [this]
    exact hne

theorem removeByUuid_wf {db : DB} (hwf : DBWF db) (u : Nat) :
    DBWF (db.removeByUuid u) := by
  obtain ⟨hn, hu, hb⟩ := hwf
  refine ⟨?_, ?_, ?_⟩
  · exact ((List.filter_sublist db.collections).map _).nodup hn
  · exact ((List.filter_sublist db.collections).map _).nodup hu
  · intro r hr
    exact hb r (List.mem_filter.mp hr).1

theorem upsertBase_not_named {db : DB} (hwf : DBWF db) (n : String)
    {c : CollectionRow} (hc : c ∈ (db.upsertBase n).collections) :
    c.name ≠ n := by
  unfold DB.upsertBase at hc
  cases hf : db.findCollection n with
  | none =>
    rw [hf] at hc
    have hnone : db.collections.find? (fun r => decide (r.name = n)) = none := hf
    have := List.find?_eq_none.mp hnone c hc
    intro he
    exact this (decide_eq_true he)
  | some r =>
    rw [hf] at hc
    obtain ⟨hrmem, hrname⟩ := findCollection_spec hf
    obtain ⟨hcmem, hcu⟩ := List.mem_filter.mp hc
    intro he
    have : c = r := name_inj hwf hcmem hrmem (by rw [he, hrname])
    rw [this] at hcu
    simp at hcu

theorem upsertBase_collections_sublist (db : DB) (n : String) :
    (db.upsertBase n).collections.Sublist db.collections := by
  unfold DB.upsertBase
  cases hf : db.findCollection n with
  | none => exact List.Sublist.refl _
  | some r => exact List.filter_sublist _

theorem upsertBase_findCollection_ne {db : DB} (hwf : DBWF db)
    {m n : String} (hm : m ≠ n) :
    (db.upsertBase n).findCollection m = db.findCollection m := by
  unfold DB.upsertBase
  cases hf : db.findCollection n with
  | none => rfl
  | some r => exact removeByUuid_findCollection_ne hwf hf hm

theorem upsertBase_docsOf_ne {db : DB} (hwf : DBWF db)
    {m n : String} (hm : m ≠ n) :
    (db.upsertBase n).docsOf m = db.docsOf m := by
  unfold DB.upsertBase
  cases hf : db.findCollection n with
  | none => rfl
  | some r => exact removeByUuid_docsOf_ne hwf hf hm

theorem upsert_wf {db : DB} (hwf : DBWF db) (n : String) (docs : List Doc) :
    DBWF (db.upsert n docs) := by
  have hsub := upsertBase_collections_sublist db n
  refine ⟨?_, ?_, ?_⟩
  · show ((db.upsertBase n).collections
        ++ [(⟨n, db.nextUuid⟩ : CollectionRow)]).map (fun r => r.name) |>.Nodup
    rw [List.map_append, List.nodup_append]
    refine ⟨(hsub.map _).nodup hwf.1, List.nodup_singleton _, ?_⟩
    intro a ha hb
    simp only [List.map_cons, List.map_nil, List.mem_singleton] at hb
    obtain ⟨c, hc, hcname⟩ := List.mem_map.mp ha
    exact upsertBase_not_named hwf n hc (by rw [hcname, hb])
  · show ((db.upsertBase n).collections
        ++ [(⟨n, db.nextUuid⟩ : CollectionRow)]).map (fun r => r.uuid) |>.Nodup
    rw [List.map_append, List.nodup_append]
    refine ⟨(hsub.map _).nodup hwf.2.1, List.nodup_singleton _, ?_⟩
    intro a ha hb
    simp only [List.map_cons, List.map_nil, List.mem_singleton] at hb
    obtain ⟨c, hc, hcu⟩ := List.mem_map.mp ha
    have : c.uuid < db.nextUuid := hwf.2.2 c (hsub.subset hc)
    omega
  · intro r hr
    show r.uuid < db.nextUuid + 1
    have hr' : r ∈ (db.upsertBase n).collections
        ++ [(⟨n, db.nextUuid⟩ : CollectionRow)] := hr
    rcases List.mem_append.mp hr' with hr2 | hr2
    · have : r.uuid < db.nextUuid := hwf.2.2 r (hsub.subset hr2)
      omega
    · simp only [List.mem_singleton] at hr2
      rw [hr2]
      show db.nextUuid < db.nextUuid + 1
      omega

theorem upsert_findCollection_ne {db : DB} (hwf : DBWF db) (docs : List Doc)
    {m n : String} (hm : m ≠ n) :
    (db.upsert n docs).findCollection m = db.findCollection m := by
  show (((db.upsertBase n).collections
      ++ [(⟨n, db.nextUuid⟩ : CollectionRow)]).find?
    (fun r => decide (r.name = m))) = db.findCollection m
  rw [List.find?_append]
  have h2 : List.find? (fun r => decide (r.name = m))
      [(⟨n, db.nextUuid⟩ : CollectionRow)] = none := by
    simp [List.find?_singleton, Ne.symm hm]
  rw [h2, Option.or_none]
  exact upsertBase_findCollection_ne hwf hm

theorem upsert_docsOf_ne {db : DB} (hwf : DBWF db) (docs : List Doc)
    {m n : String} (hm : m ≠ n) :
    (db.upsert n docs).docsOf m = db.docsOf m := by
  unfold DB.docsOf
  rw [upsert_findCollection_ne hwf docs hm]
  cases hfm : db.findCollection m with
  | none => rfl
  | some rm =>
    obtain ⟨hmmem, hmname⟩ := findCollection_spec hfm
    show (((db.upsertBase n).embeddings
        ++ docs.map (fun d => (⟨db.nextUuid, d⟩ : EmbeddingRow))).filter
          (fun e => decide (e.collection_id = rm.uuid))).map (fun e => e.document)
      = (db.embeddings.filter (fun e => decide (e.collection_id = rm.uuid))).map
          (fun e => e.document)
    rw [List.filter_append]
    have hlt : rm.uuid < db.nextUuid := hwf.2.2 rm hmmem
    have hnew : (docs.map (fun d => (⟨db.nextUuid, d⟩ : EmbeddingRow))).filter
        (fun e => decide (e.collection_id = rm.uuid)) = [] := by
      rw [List.filter_eq_nil_iff]
      intro a ha
      obtain ⟨d, _, hd⟩ := List.mem_map.mp ha
      rw [← hd]
      simp only [decide_eq_true_eq]
      omega
    rw [hnew, List.append_nil]
    have hfil : (db.upsertBase n).embeddings.filter
        (fun e => decide (e.collection_id = rm.uuid))
        = db.embeddings.filter (fun e => decide (e.collection_id = rm.uuid)) := by
      unfold DB.upsertBase
      cases hf : db.findCollection n with
      | none => rfl
      | some r =>
        obtain ⟨hrmem, hrname⟩ := findCollection_spec hf
        show (db.embeddings.filter (fun e => decide (e.collection_id ≠ r.uuid))).filter
          (fun e => decide (e.collection_id = rm.uuid)) = _
        apply filter_filter_of_imp
        intro e _ hpe
        have h1 : e.collection_id = rm.uuid := of_decide_eq_true hpe
        apply decide_eq_true
        rw [h1]
        intro hq
        have : rm = r := uuid_inj hwf hmmem hrmem hq
        exact hm (by rw [← hmname, this, hrname])
    rw [hfil]

theorem list_collections_state (s : ServerState) : (list_collections s).2 = s := by
  unfold list_collections
  split_ifs <;> rfl

theorem inv_init {db : DB} (hdb : DBWF db) : Inv ⟨false, db, []⟩ := by
  refine ⟨hdb, ?_⟩
  intro p hp
  simp at hp

/-- Every operation preserves the cache invariant: lookup-or-create only
caches a chain built from the collection's current contents, and both
mutating endpoints evict the touched name. -/
theorem inv_preserved (s : ServerState) (op : Op) (h : Inv s) :
    Inv (runOp s op) := by
  cases op with
  | startup => exact h
  | ask q n =>
    show Inv (ask_question s q n).2
    unfold ask_question
    by_cases hr : s.is_server_ready = false
    · rw [if_pos hr]
      exact h
    · rw [if_neg hr]
      unfold get_rag_chain
      cases hc : s.rag_chain_cache.find? (fun p => decide (p.1 = n)) with
      | some p => exact h
      | none =>
        cases hf : s.db.findCollection n with
        | some r =>
          refine ⟨h.1, ?_⟩
          intro p hp
          rcases List.mem_append.mp hp with hp2 | hp2
          · exact h.2 p hp2
          · simp only [List.mem_singleton] at hp2
            subst hp2
            exact ⟨by simp [hf], rfl⟩
        | none => exact h
  | ingest n c =>
    show Inv (ingest_data s n c).2
    unfold ingest_data
    by_cases hr : s.is_server_ready = false
    · rw [if_pos hr]
      exact h
    · rw [if_neg hr]
      by_cases he : (splitText c).isEmpty = true
      · rw [if_pos he]
        exact h
      · rw [if_neg he]
        refine ⟨?_, ?_⟩
        · show DBWF (s.db.upsert n (splitText c))
          exact upsert_wf h.1 n (splitText c)
        · intro p hp
          have hp' : p ∈ s.rag_chain_cache.filter (fun q => decide (q.1 ≠ n)) := hp
          obtain ⟨hmem, hpn⟩ := List.mem_filter.mp hp'
          have hne : p.1 ≠ n := of_decide_eq_true hpn
          obtain ⟨hfind, hsnap⟩ := h.2 p hmem
          constructor
          · show (s.db.upsert n (splitText c)).findCollection p.1 ≠ none
            rw [upsert_findCollection_ne h.1 (splitText c) hne]
            exact hfind
          · show p.2 = (s.db.upsert n (splitText c)).docsOf p.1
            rw [upsert_docsOf_ne h.1 (splitText c) hne]
            exact hsnap
  | listCollections =>
    show Inv (list_collections s).2
    rw [list_collections_state s]
    exact h
  | delete n f =>
    show Inv (delete_collection s n f).2
    unfold delete_collection
    by_cases hr : s.is_server_ready = false
    · rw [if_pos hr]
      exact h
    · rw [if_neg hr]
      by_cases hff : f = some .onFind
      · rw [if_pos hff]
        exact h
      · rw [if_neg hff]
        cases hf : s.db.findCollection n with
        | none => exact h
        | some r =>
          dsimp only
          by_cases h1 : f = some .onDeleteEmbeddings
          · rw [if_pos h1]
            exact h
          · rw [if_neg h1]
            by_cases h2 : f = some .onDeleteCollection
            · rw [if_pos h2]
              exact h
            · rw [if_neg h2]
              refine ⟨?_, ?_⟩
              · show DBWF (s.db.removeByUuid r.uuid)
                exact removeByUuid_wf h.1 r.uuid
              · intro p hp
                have hp' : p ∈ s.rag_chain_cache.filter
                    (fun q => decide (q.1 ≠ n)) := hp
                obtain ⟨hmem, hpn⟩ := List.mem_filter.mp hp'
                have hne : p.1 ≠ n := of_decide_eq_true hpn
                obtain ⟨hfind, hsnap⟩ := h.2 p hmem
                constructor
                · show (s.db.removeByUuid r.uuid).findCollection p.1 ≠ none
                  rw [removeByUuid_findCollection_ne h.1 hf hne]
                  exact hfind
                · show p.2 = (s.db.removeByUuid r.uuid).docsOf p.1
                  rw [removeByUuid_docsOf_ne h.1 hf hne]
                  exact hsnap

/-- Every reachable server state satisfies the cache invariant. -/
theorem reachable_inv {s : ServerState} (h : Reachable s) : Inv s := by
  induction h with
  | init db hdb => exact inv_init hdb
  | step s op h ih => exact inv_preserved s op ih

theorem s0_reachable : Reachable s0 :=
  Reachable.init db0 (by decide)

theorem s1_reachable : Reachable s1 :=
  Reachable.step s0 .startup s0_reachable

theorem s2_reachable : Reachable s2 :=
  Reachable.step s1 (.ingest "docs" ['h', 'i']) s1_reachable

theorem any_filter_ne (l : List (String × List Doc)) (n : String) :
    (l.filter (fun p => decide (p.1 ≠ n))).any (fun p => decide (p.1 = n))
      = false := by
  induction l with
  | nil => rfl
  | cons a l ih =>
    by_cases ha : a.1 = n
    · rw [List.filter_cons_of_neg (by simp [ha])]
      exact ih
    · rw [List.filter_cons_of_pos (by simp [ha])]
      simp only [List.any_cons, ih]
      simp [ha]

theorem removeByUuid_findCollection_self {db : DB} (hwf : DBWF db)
    {n : String} {r : CollectionRow} (hf : db.findCollection n = some r) :
    (db.removeByUuid r.uuid).findCollection n = none := by
  obtain ⟨hrmem, hrname⟩ := findCollection_spec hf
  show (db.collections.filter (fun c => decide (c.uuid ≠ r.uuid))).find?
    (fun c => decide (c.name = n)) = none
  rw [List.find?_eq_none]
  intro c hc hcn
  obtain ⟨hcmem, hcu⟩ := List.mem_filter.mp hc
  have hcname : c.name = n := of_decide_eq_true hcn
  have : c = r := name_inj hwf hcmem hrmem (by rw [hcname, hrname])
  rw [this] at hcu
  simp at hcu

theorem removeByUuid_noOrphans {db : DB} (u : Nat)
    (h : db.noOrphans = true) : (db.removeByUuid u).noOrphans = true := by
  unfold DB.noOrphans at h ⊢
  rw [List.all_eq_true] at h ⊢
  intro e he
  obtain ⟨hemem, heu⟩ := List.mem_filter.mp he
  have heu' : e.collection_id ≠ u := of_decide_eq_true heu
  have hany := h e hemem
  rw [List.any_eq_true] at hany
  obtain ⟨c, hcmem, hcu⟩ := hany
  have hcu' : c.uuid = e.collection_id := of_decide_eq_true hcu
  rw [List.any_eq_true]
  refine ⟨c, List.mem_filter.mpr ⟨hcmem, ?_⟩, hcu⟩
  apply decide_eq_true
  rw [hcu']
  exact heu'

/-- Anatomy of a successful delete: the server was ready, the collection
existed, and the new state is the old one with the collection's rows removed
and the cache entry evicted. -/
theorem delete_success_spec (s : ServerState) (n : String)
    (f : Option DeleteFailure)
    (hok : (delete_collection s n f).1.isOk = true) :
    ∃ r, s.is_server_ready = true ∧ s.db.findCollection n = some r ∧
      (delete_collection s n f).2 =
        { is_server_ready := s.is_server_ready,
          db := s.db.removeByUuid r.uuid,
          rag_chain_cache :=
            s.rag_chain_cache.filter (fun p => decide (p.1 ≠ n)) } := by
  unfold delete_collection at hok ⊢
  by_cases hr : s.is_server_ready = false
  · rw [if_pos hr] at hok
    simp [Outcome.isOk] at hok
  · rw [if_neg hr] at hok ⊢
    by_cases hff : f = some .onFind
    · rw [if_pos hff] at hok
      simp [Outcome.isOk] at hok
    · rw [if_neg hff] at hok ⊢
      cases hf : s.db.findCollection n with
      | none =>
        rw [hf] at hok
        simp [Outcome.isOk] at hok
      | some r =>
        rw [hf] at hok
        dsimp only at hok ⊢
        by_cases h1 : f = some .onDeleteEmbeddings
        · rw [if_pos h1] at hok
          simp [Outcome.isOk] at hok
        · rw [if_neg h1] at hok ⊢
          by_cases h2 : f = some .onDeleteCollection
          · rw [if_pos h2] at hok
            simp [Outcome.isOk] at hok
          · rw [if_neg h2]
            refine ⟨r, ?_, rfl, rfl⟩
            cases hb : s.is_server_ready with
            | false => exact absurd hb hr
            | true => rfl

theorem find?_filter_ne_none (l : List (String × List Doc)) (n : String) :
    (l.filter (fun p => decide (p.1 ≠ n))).find? (fun p => decide (p.1 = n))
      = none := by
  rw [List.find?_eq_none]
  intro p hp hpn
  obtain ⟨_, hne⟩ := List.mem_filter.mp hp
  exact (of_decide_eq_true hne) (of_decide_eq_true hpn)

/-- Shared 404 lemma for `/ask`: when the server is ready, the collection is
absent and no cached chain exists for it, `ask_question` answers 404 and
leaves the state unchanged. -/
theorem ask_missing_404 (s : ServerState) (q n : String)
    (hready : s.is_server_ready = true)
    (hmiss : s.db.findCollection n = none)
    (hcache : s.rag_chain_cache.find? (fun p => decide (p.1 = n)) = none) :
    ask_question s q n = (.err 404, s) := by
  unfold ask_question
  rw [if_neg (by simp [hready])]
  unfold get_rag_chain
  rw [hcache, hmiss]

theorem mem_listedNames {s : ServerState} {n : String}
    (h : n ∈ listedNames s) : ∃ c ∈ s.db.collections, c.name = n := by
  unfold listedNames list_collections at h
  by_cases hr : s.is_server_ready = false
  · rw [if_pos hr] at h
    simp at h
  · rw [if_neg hr] at h
    by_cases ht : s.db.hasTables = false
    · rw [if_pos ht] at h
      simp at h
    · rw [if_neg ht] at h
      dsimp only at h
      obtain ⟨c, hc, hcn⟩ := List.mem_map.mp h
      exact ⟨c, hc, hcn⟩

/-- Claim C1: after a mutating request on collection `n` completes
successfully (POST /ingest with that collection name, or DELETE
/collections/n), `n` is not a key of the in-memory `rag_chain_cache`; and in
every reachable state each pipeline handle remaining in the cache was built
against the current (unmutated-since) contents of its collection. -/
theorem claim_C1_cache_eviction (s : ServerState) (n : String)
    (content : List Char) (f : Option DeleteFailure) (hs : Reachable s) :
    ((ingest_data s n content).1.isOk = true →
      cacheHasKey (ingest_data s n content).2 n = false)
  ∧ ((delete_collection s n f).1.isOk = true →
      cacheHasKey (delete_collection s n f).2 n = false)
  ∧ cacheCurrent s = true := by
  refine ⟨?_, ?_, ?_⟩
  · intro hok
    unfold ingest_data at hok ⊢
    by_cases hr : s.is_server_ready = false
    · rw [if_pos hr] at hok
      simp [Outcome.isOk] at hok
    · rw [if_neg hr] at hok ⊢
      by_cases he : (splitText content).isEmpty = true
      · rw [if_pos he] at hok
        simp [Outcome.isOk] at hok
      · rw [if_neg he]
        show (s.rag_chain_cache.filter (fun p => decide (p.1 ≠ n))).any
          (fun p => decide (p.1 = n)) = false
        exact any_filter_ne s.rag_chain_cache n
  · intro hok
    obtain ⟨r, hready, hf, hstate⟩ := delete_success_spec s n f hok
    rw [hstate]
    show (s.rag_chain_cache.filter (fun p => decide (p.1 ≠ n))).any
      (fun p => decide (p.1 = n)) = false
    exact any_filter_ne s.rag_chain_cache n
  · have hinv := reachable_inv hs
    unfold cacheCurrent
    rw [List.all_eq_true]
    intro p hp
    exact decide_eq_true (hinv.2 p hp).2

/-- Claim C2: DELETE /collections/name runs its three dependent statements
in one transaction.  With no database failure it answers 404 exactly when the
name is absent from the metadata table; every non-204 outcome (404, or 500
from an intermediate failure, which the transaction rolls back) leaves the
server state unchanged; a successful deletion removes the collection's
metadata row and leaves no orphaned embedding rows. -/
theorem claim_C2_delete_transaction (s : ServerState) (n : String)
    (f : Option DeleteFailure) (hready : s.is_server_ready = true)
    (hwf : DBWF s.db) :
    (f = none →
      (((delete_collection s n f).1 = .err 404)
        ↔ s.db.findCollection n = none))
  ∧ ((delete_collection s n f).1.isOk = false →
      (delete_collection s n f).2 = s)
  ∧ ((delete_collection s n f).1.isOk = true →
      (delete_collection s n f).2.db.findCollection n = none
      ∧ (s.db.noOrphans = true →
          (delete_collection s n f).2.db.noOrphans = true)) := by
  have hnr : ¬s.is_server_ready = false := by simp [hready]
  unfold delete_collection
  rw [if_neg hnr]
  by_cases hff : f = some .onFind
  · rw [if_pos hff]
    refine ⟨?_, fun _ => rfl, ?_⟩
    · intro h0
      rw [h0] at hff
      simp at hff
    · intro hcon
      simp [Outcome.isOk] at hcon
  · rw [if_neg hff]
    cases hf : s.db.findCollection n with
    | none =>
      refine ⟨fun _ => by simp, fun _ => rfl, ?_⟩
      intro hcon
      simp [Outcome.isOk] at hcon
    | some r =>
      dsimp only
      by_cases h1 : f = some .onDeleteEmbeddings
      · rw [if_pos h1]
        refine ⟨?_, fun _ => rfl, ?_⟩
        · intro h0
          rw [h0] at h1
          simp at h1
        · intro hcon
          simp [Outcome.isOk] at hcon
      · rw [if_neg h1]
        by_cases h2 : f = some .onDeleteCollection
        · rw [if_pos h2]
          refine ⟨?_, fun _ => rfl, ?_⟩
          · intro h0
            rw [h0] at h2
            simp at h2
          · intro hcon
            simp [Outcome.isOk] at hcon
        · rw [if_neg h2]
          refine ⟨fun _ => by simp, ?_, ?_⟩
          · intro hcon
            simp [Outcome.isOk] at hcon
          · intro _
            constructor
            · show (s.db.removeByUuid r.uuid).findCollection n = none
              exact removeByUuid_findCollection_self hwf hf
            · intro hno
              show (s.db.removeByUuid r.uuid).noOrphans = true
              exact removeByUuid_noOrphans r.uuid hno

/-- Claim C3: while the readiness flag is down, POST /ask, POST /ingest and
GET /collections each answer 503 and change no server state. -/
theorem claim_C3_unready_503 (s : ServerState) (q n m : String)
    (c : List Char) (h : s.is_server_ready = false) :
    ask_question s q n = (.err 503, s)
  ∧ ingest_data s m c = (.err 503, s)
  ∧ list_collections s = (.err 503, s) := by
  refine ⟨?_, ?_, ?_⟩
  · unfold ask_question
    rw [if_pos h]
  · unfold ingest_data
    rw [if_pos h]
  · unfold list_collections
    rw [if_pos h]

/-- Claim C4: the ingestion chunker produces sliding windows: chunk `i` is
the contiguous slice starting at `stride * i` (so chunk boundaries depend on
positions only, never on the characters); every chunk has at most `chunkSize`
characters and every non-final chunk exactly `chunkSize`; and consecutive
chunks share `chunkOverlap` characters. -/
theorem claim_C4_chunker (c : List Char) :
    (∀ i, i < (splitText c).length →
      (splitText c).getD i [] = (c.drop (stride * i)).take chunkSize)
  ∧ (∀ i, i + 1 < (splitText c).length →
      ((splitText c).getD i []).length = chunkSize)
  ∧ (∀ i, i < (splitText c).length →
      ((splitText c).getD i []).length ≤ chunkSize)
  ∧ (∀ i, i + 1 < (splitText c).length →
      ((splitText c).getD i []).drop stride
        = ((splitText c).getD (i + 1) []).take chunkOverlap) :=
  ⟨fun i hi => splitText_chunk c i hi,
   fun i hi => splitText_chunk_length_full c i hi,
   fun i hi => splitText_chunk_length_le c i hi,
   fun i hi => splitText_overlap c i hi⟩

/-- Claim C5: on a ready server, asking against a collection that is missing
answers 404 and changes nothing. -/
theorem claim_C5_ask_missing_404 (s : ServerState) (q n : String)
    (hs : Reachable s) (hready : s.is_server_ready = true)
    (hmiss : s.db.findCollection n = none) :
    ask_question s q n = (.err 404, s) := by
  have hinv := reachable_inv hs
  have hcache : s.rag_chain_cache.find? (fun p => decide (p.1 = n)) = none := by
    rw [List.find?_eq_none]
    intro p hp hpn
    have h1 : p.1 = n := of_decide_eq_true hpn
    have h2 := (hinv.2 p hp).1
    rw [h1] at h2
    exact h2 hmiss
  exact ask_missing_404 s q n hready hmiss hcache

/-- Claim C6: on a ready server, POST /ingest answers 400 exactly when
splitting the content produces zero chunks, and in that case neither the
database nor the cache changes. -/
theorem claim_C6_ingest_400 (s : ServerState) (n : String) (c : List Char)
    (hready : s.is_server_ready = true) :
    (((ingest_data s n c).1 = .err 400) ↔ splitText c = [])
  ∧ (splitText c = [] → ingest_data s n c = (.err 400, s)) := by
  unfold ingest_data
  rw [if_neg (by simp [hready])]
  by_cases he : (splitText c).isEmpty = true
  · have hnil : splitText c = [] := List.isEmpty_iff.mp he
    rw [if_pos he]
    exact ⟨by simp [hnil], fun _ => rfl⟩
  · have hne : splitText c ≠ [] := fun h0 => he (List.isEmpty_iff.mpr h0)
    rw [if_neg he]
    refine ⟨?_, fun h0 => absurd h0 hne⟩
    constructor
    · intro hcon
      simp at hcon
    · intro h0
      exact absurd h0 hne

/-- Claim C7: after a successful DELETE of collection `n`, GET /collections
no longer lists `n` and POST /ask against `n` answers 404. -/
theorem claim_C7_delete_then_list_ask (s : ServerState) (n q : String)
    (f : Option DeleteFailure) (hs : Reachable s)
    (hok : (delete_collection s n f).1.isOk = true) :
    n ∉ listedNames (delete_collection s n f).2
  ∧ ask_question (delete_collection s n f).2 q n
      = (.err 404, (delete_collection s n f).2) := by
  have hinv := reachable_inv hs
  obtain ⟨r, hready, hf, hstate⟩ := delete_success_spec s n f hok
  obtain ⟨hrmem, hrname⟩ := findCollection_spec hf
  constructor
  · intro hmem
    rw [hstate] at hmem
    obtain ⟨c, hc, hcn⟩ := mem_listedNames hmem
    have hc' : c ∈ s.db.collections.filter
        (fun q => decide (q.uuid ≠ r.uuid)) := hc
    obtain ⟨hcmem, hcu⟩ := List.mem_filter.mp hc'
    have : c = r := name_inj hinv.1 hcmem hrmem (by rw [hcn, hrname])
    rw [this] at hcu
    simp at hcu
  · rw [hstate]
    apply ask_missing_404
    · show s.is_server_ready = true
      exact hready
    · show (s.db.removeByUuid r.uuid).findCollection n = none
      exact removeByUuid_findCollection_self hinv.1 hf
    · show (s.rag_chain_cache.filter (fun p => decide (p.1 ≠ n))).find?
        (fun p => decide (p.1 = n)) = none
      exact find?_filter_ne_none s.rag_chain_cache n

/-- Claim C8: chunking is deterministic and reproducible: inputs of equal
length yield the same number of chunks, and the chunk count is the function
`numChunks` of the input length alone (identical inputs trivially yield
identical chunk lists, `splitText` being a function). -/
theorem claim_C8_deterministic (c c' : List Char) (h : c.length = c'.length) :
    (splitText c).length = (splitText c').length
  ∧ (splitText c).length = numChunks c.length :=
  ⟨splitText_length_eq c.length c c' le_rfl h, splitText_count c⟩

/-- Claim C9: DELETE /collections/name is gated by the readiness flag exactly
like the other endpoints: while the flag is down it answers 503 and changes
nothing. -/
theorem claim_C9_delete_unready_503 (s : ServerState) (n : String)
    (f : Option DeleteFailure) (h : s.is_server_ready = false) :
    delete_collection s n f = (.err 503, s) := by
  unfold delete_collection
  rw [if_pos h]

/-- Claim C10: a successful POST /ingest reports `documents_added` equal to
the number of chunks produced from the content (at least 1) and echoes the
request's collection name. -/
theorem claim_C10_ingest_response (s : ServerState) (n : String)
    (c : List Char) (hok : (ingest_data s n c).1.isOk = true) :
    documentsAdded (ingest_data s n c).1 = (splitText c).length
  ∧ 1 ≤ documentsAdded (ingest_data s n c).1
  ∧ responseCollectionName (ingest_data s n c).1 = n := by
  unfold ingest_data at hok ⊢
  by_cases hr : s.is_server_ready = false
  · rw [if_pos hr] at hok
    simp [Outcome.isOk] at hok
  · rw [if_neg hr] at hok ⊢
    by_cases he : (splitText c).isEmpty = true
    · rw [if_pos he] at hok
      simp [Outcome.isOk] at hok
    · rw [if_neg he]
      have hne : splitText c ≠ [] := fun h0 => he (List.isEmpty_iff.mpr h0)
      refine ⟨rfl, ?_, rfl⟩
      show 1 ≤ (splitText c).length
      exact List.length_pos.mpr hne

theorem claim_C1_cache_eviction_witness :
    ((ingest_data s2 "docs" ['o', 'k']).1.isOk = true
      ∧ cacheHasKey (ingest_data s2 "docs" ['o', 'k']).2 "docs" = false)
  ∧ ((delete_collection s2 "docs" none).1.isOk = true
      ∧ cacheHasKey (delete_collection s2 "docs" none).2 "docs" = false)
  ∧ cacheCurrent s2 = true := by
  have h := claim_C1_cache_eviction s2 "docs" ['o', 'k'] none s2_reachable
  exact ⟨⟨by decide, h.1 (by decide)⟩, ⟨by decide, h.2.1 (by decide)⟩, h.2.2⟩

theorem claim_C2_delete_transaction_witness :
    s2.is_server_ready = true ∧ DBWF s2.db
  ∧ (((delete_collection s2 "docs" none).1 = .err 404)
      ↔ s2.db.findCollection "docs" = none)
  ∧ (delete_collection s2 "docs" none).2.db.findCollection "docs" = none
  ∧ (s2.db.noOrphans = true →
      (delete_collection s2 "docs" none).2.db.noOrphans = true) := by
  have h := claim_C2_delete_transaction s2 "docs" none (by decide) (by decide)
  exact ⟨by decide, by decide, h.1 rfl, (h.2.2 (by decide)).1, (h.2.2 (by decide)).2⟩

theorem claim_C3_unready_503_witness :
    s0.is_server_ready = false
  ∧ ask_question s0 "who" "docs" = (.err 503, s0)
  ∧ ingest_data s0 "docs" ['x'] = (.err 503, s0)
  ∧ list_collections s0 = (.err 503, s0) := by
  have h := claim_C3_unready_503 s0 "who" "docs" "docs" ['x'] rfl
  exact ⟨rfl, h.1, h.2.1, h.2.2⟩

theorem claim_C4_chunker_witness :
    (splitText (List.replicate 501 'a')).getD 0 []
      = ((List.replicate 501 'a').drop (stride * 0)).take chunkSize
  ∧ ((splitText (List.replicate 501 'a')).getD 0 []).length = chunkSize
  ∧ ((splitText (List.replicate 501 'a')).getD 1 []).length ≤ chunkSize
  ∧ ((splitText (List.replicate 501 'a')).getD 0 []).drop stride
      = ((splitText (List.replicate 501 'a')).getD 1 []).take chunkOverlap := by
  have h := claim_C4_chunker (List.replicate 501 'a')
  exact ⟨h.1 0 (by decide), h.2.1 0 (by decide), h.2.2.1 1 (by decide),
    h.2.2.2 0 (by decide)⟩

theorem claim_C5_ask_missing_404_witness :
    s1.is_server_ready = true
  ∧ s1.db.findCollection "missing" = none
  ∧ ask_question s1 "who" "missing" = (.err 404, s1) :=
  ⟨rfl, rfl, claim_C5_ask_missing_404 s1 "who" "missing" s1_reachable rfl rfl⟩

theorem claim_C6_ingest_400_witness :
    s1.is_server_ready = true
  ∧ (((ingest_data s1 "docs" []).1 = .err 400) ↔ splitText [] = [])
  ∧ ingest_data s1 "docs" [] = (.err 400, s1) := by
  have h := claim_C6_ingest_400 s1 "docs" [] rfl
  exact ⟨rfl, h.1, h.2 rfl⟩

theorem claim_C7_delete_then_list_ask_witness :
    (delete_collection s2 "docs" none).1.isOk = true
  ∧ "docs" ∉ listedNames (delete_collection s2 "docs" none).2
  ∧ ask_question (delete_collection s2 "docs" none).2 "who" "docs"
      = (.err 404, (delete_collection s2 "docs" none).2) := by
  have h := claim_C7_delete_then_list_ask s2 "docs" "who" none s2_reachable
    (by decide)
  exact ⟨by decide, h.1, h.2⟩

theorem claim_C8_deterministic_witness :
    (List.replicate 600 'a').length = (List.replicate 600 'b').length
  ∧ (splitText (List.replicate 600 'a')).length
      = (splitText (List.replicate 600 'b')).length
  ∧ (splitText (List.replicate 600 'a')).length = numChunks 600 := by
  have h := claim_C8_deterministic (List.replicate 600 'a')
    (List.replicate 600 'b') (by decide)
  exact ⟨by decide, h.1, h.2⟩

theorem claim_C9_delete_unready_503_witness :
    s0.is_server_ready = false
  ∧ delete_collection s0 "docs" none = (.err 503, s0) :=
  ⟨rfl, claim_C9_delete_unready_503 s0 "docs" none rfl⟩

theorem claim_C10_ingest_response_witness :
    (ingest_data s1 "docs" ['h', 'i']).1.isOk = true
  ∧ documentsAdded (ingest_data s1 "docs" ['h', 'i']).1
      = (splitText ['h', 'i']).length
  ∧ 1 ≤ documentsAdded (ingest_data s1 "docs" ['h', 'i']).1
  ∧ responseCollectionName (ingest_data s1 "docs" ['h', 'i']).1 = "docs" := by
  have h := claim_C10_ingest_response s1 "docs" ['h', 'i'] (by decide)
  exact ⟨by decide, h.1, h.2.1, h.2.2⟩

end RagApp
